import Mathlib

/-!
Shallow embedding of the needletail FASTQ record extractor
(`src/formats/fastq.rs`) and proofs about it.

Bytes are modelled as `Nat` values, buffers as `List Nat`.  Rust slices
`&buf[a..b]` become `slice buf a b`; fallible construction returns
`Option` (with `none` marking the out-of-bounds panic on an empty chunk)
wrapping `Except ParseError _` for the `Result` type.
-/

namespace Needletail

/-- The record marker byte `'@'`. -/
def bAt : Nat := 64

/-- The newline byte `'\n'`. -/
def bNl : Nat := 10

/-- The carriage-return byte `'\r'`. -/
def bCr : Nat := 13

/-- The second-header marker byte `'+'`. -/
def bPlus : Nat := 43

/-- Convenience: the byte list of an ASCII string literal. -/
def bytes (s : String) : List Nat := s.toList.map Char.toNat

/-- Error kinds, from the error taxonomy (`ParseErrorType` in `src/util.rs`,
declared outside the included sources; kinds per spec section 4.3). -/
inductive ParseErrorType where
  | InvalidHeader
  | InvalidRecord
  | Invalid
deriving DecidableEq, Repr

/-- A parse error: message, kind, and the context bytes attached via
`.context(...)` (the lossily decoded snippet, kept here as raw bytes). -/
structure ParseError where
  msg : String
  error_type : ParseErrorType
  context : List Nat
deriving DecidableEq, Repr

/-- A zero-copy reference to a FASTQ record: the four field views.
Views are modelled by the byte lists they denote. -/
structure FastqRecord where
  id : List Nat
  seq : List Nat
  id2 : List Nat
  qual : List Nat
deriving DecidableEq, Repr

instance {ε α : Type} [DecidableEq ε] [DecidableEq α] : DecidableEq (Except ε α) := fun a b =>
  match a, b with
  | Except.ok x, Except.ok y =>
      if h : x = y then isTrue (by rw [h]) else isFalse (by simp [h])
  | Except.error x, Except.error y =>
      if h : x = y then isTrue (by rw [h]) else isFalse (by simp [h])
  | Except.ok _, Except.error _ => isFalse (by simp)
  | Except.error _, Except.ok _ => isFalse (by simp)

/-- `memchr::memchr`: index of the first occurrence of a byte. -/
def memchr (t : Nat) : List Nat → Option Nat
  | [] => none
  | c :: rest => if c = t then some 0 else (memchr t rest).map (· + 1)

/-- Modelled from the spec: `memchr_both` is defined in `src/util.rs`,
which is not among the included sources.  Per spec section 4.1 step 3 the
sequence scan looks for "*either* a line terminator *or* the
second-header marker (`+`), whichever comes first", so this returns the
index of the first byte equal to either target. -/
def memchr_both (t1 t2 : Nat) : List Nat → Option Nat
  | [] => none
  | c :: rest => if c = t1 ∨ c = t2 then some 0 else (memchr_both t1 t2 rest).map (· + 1)

/-- Rust slice `&buf[a..b]`. -/
def slice (l : List Nat) (a b : Nat) : List Nat := (l.drop a).take (b - a)

/-- Strip one trailing carriage-return byte, the way
`if !x.is_empty() && x[x.len()-1] == b'\r' { x = &x[..x.len()-1] }` does. -/
def stripCr (l : List Nat) : List Nat := if l.getLast? = some bCr then l.dropLast else l

/-- The validation and cleanup tail of `FastqParser::next`
(`fastq.rs` lines 110-149): computes the quality slice, runs the two
length-consistency checks, strips carriage returns and either yields the
record (advancing by `buffer_used`) or an `InvalidRecord` error. -/
def fq_check (buf : List Nat) (id seq id2 : List Nat) (id2_end qual_end buffer_used : Nat) :
    Option (Except ParseError FastqRecord) × Nat :=
  let qual := slice buf id2_end (qual_end - 1)
  if (qual_end + 1 < buf.length ∧ buf.getD qual_end 0 ≠ bAt ∧ buf.getD qual_end 0 ≠ bCr ∧
        buf.getD qual_end 0 ≠ bNl)
      ∨ (qual_end < buf.length ∧ buf.getD (qual_end - 1) 0 ≠ bNl) then
    (some (Except.error ⟨"Sequence and quality lengths differed", ParseErrorType.InvalidRecord, id⟩), 0)
  else
    let id := stripCr id
    let seq := stripCr seq
    let qual := stripCr qual
    if qual.getLast? = some bNl then
      (some (Except.error ⟨"Quality length was shorter than expected", ParseErrorType.InvalidRecord, id⟩), 0)
    else
      (some (Except.ok ⟨id, seq, id2, qual⟩), buffer_used)

/-- The arithmetic quality-end computation and final-chunk boundary
correction of `FastqParser::next` (`fastq.rs` lines 93-109), continuing
into `fq_check`.  `id_end`, `seq_end`, `id2_end` are the scan results. -/
def fq_rest (buf : List Nat) (last : Bool) (id_end seq_end id2_end : Nat) :
    Option (Except ParseError FastqRecord) × Nat :=
  let id := slice buf 1 (id_end - 1)
  let seq := slice buf id_end (seq_end - 1)
  let id2 := slice buf seq_end (id2_end - 1)
  let qual_end := id2_end + seq.length + 1
  if qual_end > buf.length then
    if last = false then (none, 0)
    else
      let we := if seq.getLast? = some bCr then 1 else 0
      if qual_end ≠ buf.length + 1 + we then (none, 0)
      else fq_check buf id seq id2 id2_end (qual_end - we) (qual_end - 1 - we)
  else fq_check buf id seq id2 id2_end qual_end qual_end

/-- One step of `<FastqParser as Iterator>::next` (`fastq.rs` lines
62-150), applied to the not-yet-consumed suffix `buf` of the chunk.
Returns the yielded item (`none` = Rust `None`, i.e. no record
available) together with the number of bytes consumed (`buffer_used` on
success, `0` otherwise — the Rust code advances `self.pos` only on the
`Some(Ok(..))` path). -/
def fq_next (buf : List Nat) (last : Bool) : Option (Except ParseError FastqRecord) × Nat :=
  match buf with
  | [] => (none, 0)
  | b :: _ =>
    if b = bNl then (none, 0)
    else
      match memchr bNl buf with
      | none => (none, 0)
      | some i =>
        match memchr_both bNl bPlus (buf.drop (i + 1)) with
        | none => (none, 0)
        | some j =>
          match memchr bNl (buf.drop (i + 1 + j + 1)) with
          | none => (none, 0)
          | some k => fq_rest buf last (i + 1) (i + 1 + j + 1) (i + 1 + j + 1 + k + 1)

/-- The parser state: chunk view, final-chunk flag, and cursor. -/
structure FastqParser where
  buf : List Nat
  last : Bool
  pos : Nat
deriving DecidableEq, Repr

/-- `FastqParser::new` (`fastq.rs` lines 40-55).  `none` models the Rust
panic: `buf[0]` is read before any other check, so the empty chunk
indexes out of bounds.  Note the source condition
`buf[0] == b'\r' && buf[0] == b'\n'` (line 43) is transcribed verbatim. -/
def FastqParser.new (buf : List Nat) (last : Bool) : Option (Except ParseError FastqParser) :=
  match buf with
  | [] => none
  | b0 :: _ =>
    if b0 ≠ bAt then
      if ¬ (last = true ∧ (b0 = bCr ∧ b0 = bNl)) then
        some (Except.error ⟨"FASTQ record must start with '@'", ParseErrorType.InvalidHeader,
          buf.take 64⟩)
      else some (Except.ok ⟨buf, last, 0⟩)
    else some (Except.ok ⟨buf, last, 0⟩)

/-- `<FastqParser as Iterator>::next` at the parser level: runs `fq_next`
on the unconsumed suffix and advances the cursor by the consumed count. -/
def FastqParser.next (p : FastqParser) : Option (Except ParseError FastqRecord) × FastqParser :=
  let r := fq_next (p.buf.drop p.pos) p.last
  (r.1, ⟨p.buf, p.last, p.pos + r.2⟩)

/-- `RecParser::used` (`fastq.rs` lines 168-170). -/
def FastqParser.used (p : FastqParser) : Nat := p.pos

/-- Iterate `FastqParser.next`, keeping only the state. -/
def FastqParser.steps : Nat → FastqParser → FastqParser
  | 0, p => p
  | k + 1, p => FastqParser.steps k p.next.2

/-- Modelled from the spec: `check_end` is defined in
`src/formats/fasta.rs`, which is not among the included sources.  Per
spec section 4.2, on the final chunk the unconsumed tail is valid
exactly when it is empty or consists solely of line-terminator bytes;
otherwise the stream-level `Invalid` error is reported.  On a non-final
chunk validation is skipped. -/
def check_end (tail : List Nat) (last : Bool) : Except ParseError Unit :=
  if last = true then
    if tail.all (fun c => c = bNl ∨ c = bCr) then Except.ok ()
    else Except.error ⟨"unparsed data at end of stream", ParseErrorType.Invalid, tail.take 64⟩
  else Except.ok ()

/-- `RecParser::eof` (`fastq.rs` lines 164-166). -/
def FastqParser.eof (p : FastqParser) : Except ParseError Unit :=
  check_end (p.buf.drop p.pos) p.last

/-- Repeatedly apply `fq_next`, dropping the consumed bytes after each
yielded record, as the driving loop does.  Returns the records yielded,
the total byte count consumed, and the error that stopped iteration (if
any).  `fuel` bounds the recursion; every successful step consumes at
least one byte, so `buf.length + 1` fuel is always enough. -/
def fq_all (last : Bool) : Nat → List Nat → List FastqRecord × Nat × Option ParseError
  | 0, _ => ([], 0, none)
  | fuel + 1, buf =>
    match fq_next buf last with
    | (some (Except.ok r), used) =>
      match fq_all last fuel (buf.drop used) with
      | (rs, c, e) => (r :: rs, used + c, e)
    | (some (Except.error e), _) => ([], 0, some e)
    | (none, _) => ([], 0, none)

/-- Extract every record from a chunk via successive `fq_next` calls. -/
def parseChunk (buf : List Nat) (last : Bool) : List FastqRecord × Nat × Option ParseError :=
  fq_all last (buf.length + 1) buf

/-- One line terminator in the chosen convention (`c = true` for CRLF). -/
def term (c : Bool) : List Nat := if c then [bCr, bNl] else [bNl]

/-- The optional carriage-return byte of the convention. -/
def crOpt (c : Bool) : List Nat := if c then [bCr] else []

/-- The byte encoding of one four-line FASTQ record in convention `c`. -/
def encodeRec (r : FastqRecord) (c : Bool) : List Nat :=
  bAt :: (r.id ++ term c ++ (r.seq ++ term c ++
    (bPlus :: (r.id2 ++ term c ++ (r.qual ++ term c)))))

/-- The byte encoding of a list of records, each in its own convention. -/
def encodeList : List (FastqRecord × Bool) → List Nat
  | [] => []
  | (r, c) :: rest => encodeRec r c ++ encodeList rest

/-- A field holds no line-terminator bytes. -/
def cleanLine (l : List Nat) : Prop := ∀ c ∈ l, c ≠ bNl ∧ c ≠ bCr

/-- Well-formedness of a logical record: terminator-free fields, no `'+'`
inside the sequence (the combined scan would stop there), and equal
sequence/quality lengths. -/
def validRec (r : FastqRecord) : Prop :=
  cleanLine r.id ∧ cleanLine r.seq ∧ cleanLine r.id2 ∧ cleanLine r.qual ∧
    bPlus ∉ r.seq ∧ r.qual.length = r.seq.length

instance decCleanLine (l : List Nat) : Decidable (cleanLine l) :=
  inferInstanceAs (Decidable (∀ c ∈ l, c ≠ bNl ∧ c ≠ bCr))

instance decValidRec (r : FastqRecord) : Decidable (validRec r) :=
  inferInstanceAs (Decidable (cleanLine r.id ∧ cleanLine r.seq ∧ cleanLine r.id2 ∧
    cleanLine r.qual ∧ bPlus ∉ r.seq ∧ r.qual.length = r.seq.length))

/-- The record view the parser yields for an encoded record: id, seq and
qual come back verbatim (their trailing `\r`, if any, stripped); id2
keeps the `'+'` marker and, in the CRLF convention, its trailing `\r`. -/
def recView (r : FastqRecord) (c : Bool) : FastqRecord :=
  ⟨r.id, r.seq, bPlus :: (r.id2 ++ crOpt c), r.qual⟩

/-- The records whose encodings fit entirely within the first `n` bytes. -/
def encTake : List (FastqRecord × Bool) → Nat → List (FastqRecord × Bool)
  | [], _ => []
  | x :: xs, n =>
    if (encodeRec x.1 x.2).length ≤ n then x :: encTake xs (n - (encodeRec x.1 x.2).length)
    else []

/-- The records not fully contained in the first `n` bytes. -/
def encDrop : List (FastqRecord × Bool) → Nat → List (FastqRecord × Bool)
  | [], _ => []
  | x :: xs, n =>
    if (encodeRec x.1 x.2).length ≤ n then encDrop xs (n - (encodeRec x.1 x.2).length)
    else x :: xs

/-- The byte encoding of a record whose final line terminator is missing:
the chunk ends exactly at the quality characters. -/
def encodeRecNoTerm (r : FastqRecord) (c : Bool) : List Nat :=
  bAt :: (r.id ++ term c ++ (r.seq ++ term c ++ (bPlus :: (r.id2 ++ term c ++ r.qual))))

/-- Sample well-formed records used by witness theorems. -/
def sampleRecs : List (FastqRecord × Bool) :=
  [(⟨bytes "t", bytes "A", [], bytes "I"⟩, false),
    (⟨bytes "u", bytes "G", [], bytes "J"⟩, true)]

/-! ### List toolkit -/

theorem memchr_none (t : Nat) (l : List Nat) (h : ∀ c ∈ l, c ≠ t) : memchr t l = none := by
  induction l with
  | nil => rfl
  | cons a l ih =>
    have ha : a ≠ t := h a (List.mem_cons_self a l)
    simp [memchr, ha, ih (fun c hc => h c (List.mem_cons_of_mem a hc))]

theorem memchr_hit (t : Nat) (pre suf : List Nat) (h : ∀ c ∈ pre, c ≠ t) :
    memchr t (pre ++ t :: suf) = some pre.length := by
  induction pre with
  | nil => simp [memchr]
  | cons a l ih =>
    have ha : a ≠ t := h a (List.mem_cons_self a l)
    simp [memchr, ha, ih (fun c hc => h c (List.mem_cons_of_mem a hc))]

theorem memchr_both_none (t1 t2 : Nat) (l : List Nat) (h : ∀ c ∈ l, ¬(c = t1 ∨ c = t2)) :
    memchr_both t1 t2 l = none := by
  induction l with
  | nil => rfl
  | cons a l ih =>
    have ha := h a (List.mem_cons_self a l)
    simp [memchr_both, ha, ih (fun c hc => h c (List.mem_cons_of_mem a hc))]

theorem memchr_both_hit (t1 t2 : Nat) (pre suf : List Nat)
    (h : ∀ c ∈ pre, ¬(c = t1 ∨ c = t2)) :
    memchr_both t1 t2 (pre ++ t1 :: suf) = some pre.length := by
  induction pre with
  | nil => simp [memchr_both]
  | cons a l ih =>
    have ha := h a (List.mem_cons_self a l)
    simp [memchr_both, ha, ih (fun c hc => h c (List.mem_cons_of_mem a hc))]

theorem drop_exact (l m : List Nat) (n : Nat) (h : n = l.length) : (l ++ m).drop n = m := by
  subst h; exact List.drop_left l m

theorem take_exact (l m : List Nat) (n : Nat) (h : n = l.length) : (l ++ m).take n = l := by
  subst h; exact List.take_left l m

theorem getD_at (l : List Nat) (b : Nat) (m : List Nat) (n d : Nat) (h : n = l.length) :
    (l ++ b :: m).getD n d = b := by
  subst h
  rw [List.getD_append_right l (b :: m) d l.length (Nat.le_refl _)]
  simp [List.getD]

theorem stripCr_concat (l : List Nat) : stripCr (l ++ [bCr]) = l := by
  simp [stripCr, List.getLast?_concat, List.dropLast_concat]

theorem getLast?_ne_of_clean (l : List Nat) (t : Nat) (h : ∀ c ∈ l, c ≠ t) :
    l.getLast? ≠ some t := by
  intro hc
  rcases l.eq_nil_or_concat with rfl | ⟨l', b, rfl⟩
  · simp at hc
  · rw [List.concat_eq_append, List.getLast?_concat] at hc
    exact h b (by simp) (by injection hc)

theorem stripCr_clean (l : List Nat) (h : ∀ c ∈ l, c ≠ bCr) : stripCr l = l := by
  simp [stripCr, getLast?_ne_of_clean l bCr h]

/-! ### The master scan lemma

`fq_next` on a buffer of the shape
`'@' A '\n' B '\n' '+' C '\n' D` — header bytes `A` (no newline),
sequence-line bytes `B` (no newline, no `'+'`), second-header text `C`
(no newline), rest `D` — resolves its three scans to the line
boundaries and hands over to `fq_rest`. -/

theorem fq_next_structured (A B C D : List Nat) (last : Bool)
    (hA : ∀ c ∈ A, c ≠ bNl) (hB : ∀ c ∈ B, ¬(c = bNl ∨ c = bPlus)) (hC : ∀ c ∈ C, c ≠ bNl) :
    fq_next (bAt :: (A ++ bNl :: (B ++ bNl :: bPlus :: (C ++ bNl :: D)))) last =
      fq_rest (bAt :: (A ++ bNl :: (B ++ bNl :: bPlus :: (C ++ bNl :: D)))) last
        (A.length + 2) (A.length + B.length + 3) (A.length + B.length + C.length + 5) := by
  have hA' : ∀ c ∈ bAt :: A, c ≠ bNl := by
    intro c hc
    rcases List.mem_cons.1 hc with rfl | hc
    · decide
    · exact hA c hc
  have h1 : memchr bNl (bAt :: (A ++ bNl :: (B ++ bNl :: bPlus :: (C ++ bNl :: D)))) =
      some (A.length + 1) := by
    have := memchr_hit bNl (bAt :: A) (B ++ bNl :: bPlus :: (C ++ bNl :: D)) hA'
    simpa using this
  have h2 : (bAt :: (A ++ bNl :: (B ++ bNl :: bPlus :: (C ++ bNl :: D)))).drop
      (A.length + 1 + 1) = B ++ bNl :: bPlus :: (C ++ bNl :: D) := by
    have : bAt :: (A ++ bNl :: (B ++ bNl :: bPlus :: (C ++ bNl :: D))) =
        (bAt :: A ++ [bNl]) ++ (B ++ bNl :: bPlus :: (C ++ bNl :: D)) := by simp
    rw [this, drop_exact _ _ _ (by simp [Nat.add_comm])]
  have h3 : memchr_both bNl bPlus (B ++ bNl :: bPlus :: (C ++ bNl :: D)) = some B.length :=
    memchr_both_hit bNl bPlus B (bPlus :: (C ++ bNl :: D)) hB
  have h4 : (bAt :: (A ++ bNl :: (B ++ bNl :: bPlus :: (C ++ bNl :: D)))).drop
      (A.length + 1 + 1 + B.length + 1) = bPlus :: (C ++ bNl :: D) := by
    have : bAt :: (A ++ bNl :: (B ++ bNl :: bPlus :: (C ++ bNl :: D))) =
        (bAt :: A ++ bNl :: B ++ [bNl]) ++ (bPlus :: (C ++ bNl :: D)) := by simp
    rw [this, drop_exact _ _ _ (by simp; omega)]
  have h5 : memchr bNl (bPlus :: (C ++ bNl :: D)) = some (C.length + 1) := by
    have hC' : ∀ c ∈ bPlus :: C, c ≠ bNl := by
      intro c hc
      rcases List.mem_cons.1 hc with rfl | hc
      · decide
      · exact hC c hc
    have := memchr_hit bNl (bPlus :: C) D hC'
    simpa using this
  simp only [fq_next, h1, h2, h3, h4, h5]
  rw [if_neg (by decide : ¬(bAt = bNl))]
  congr 1 <;> omega

/-! ### Slice values on a structured buffer -/

theorem slice_structured_id (A R : List Nat) :
    slice (bAt :: (A ++ bNl :: R)) 1 (A.length + 2 - 1) = A := by
  show ((bAt :: (A ++ bNl :: R)).drop 1).take (A.length + 2 - 1 - 1) = A
  rw [List.drop_one, List.tail_cons]
  exact take_exact A (bNl :: R) _ (by omega)

theorem slice_structured_seq (A B R : List Nat) :
    slice (bAt :: (A ++ bNl :: (B ++ bNl :: R))) (A.length + 2)
      (A.length + B.length + 3 - 1) = B := by
  show ((bAt :: (A ++ bNl :: (B ++ bNl :: R))).drop (A.length + 2)).take
      (A.length + B.length + 3 - 1 - (A.length + 2)) = B
  have h : bAt :: (A ++ bNl :: (B ++ bNl :: R)) =
      (bAt :: A ++ [bNl]) ++ (B ++ bNl :: R) := by simp
  rw [h, drop_exact _ _ _ (by simp)]
  exact take_exact B (bNl :: R) _ (by omega)

theorem slice_structured_id2 (A B C D : List Nat) :
    slice (bAt :: (A ++ bNl :: (B ++ bNl :: bPlus :: (C ++ bNl :: D))))
      (A.length + B.length + 3) (A.length + B.length + C.length + 5 - 1) = bPlus :: C := by
  show ((bAt :: (A ++ bNl :: (B ++ bNl :: bPlus :: (C ++ bNl :: D)))).drop
      (A.length + B.length + 3)).take
      (A.length + B.length + C.length + 5 - 1 - (A.length + B.length + 3)) = bPlus :: C
  have h : bAt :: (A ++ bNl :: (B ++ bNl :: bPlus :: (C ++ bNl :: D))) =
      (bAt :: A ++ bNl :: B ++ [bNl]) ++ (bPlus :: (C ++ bNl :: D)) := by simp
  rw [h, drop_exact _ _ _ (by simp; omega)]
  rw [show A.length + B.length + C.length + 5 - 1 - (A.length + B.length + 3) =
      C.length + 1 from by omega]
  rw [List.take_succ_cons]
  rw [take_exact C (bNl :: D) _ rfl]

theorem drop_structured_tail (A B C D : List Nat) :
    (bAt :: (A ++ bNl :: (B ++ bNl :: bPlus :: (C ++ bNl :: D)))).drop
      (A.length + B.length + C.length + 5) = D := by
  have h : bAt :: (A ++ bNl :: (B ++ bNl :: bPlus :: (C ++ bNl :: D))) =
      (bAt :: A ++ bNl :: B ++ bNl :: bPlus :: C ++ [bNl]) ++ D := by simp
  rw [h, drop_exact _ _ _ (by simp; omega)]

theorem length_structured (A B C D : List Nat) :
    (bAt :: (A ++ bNl :: (B ++ bNl :: bPlus :: (C ++ bNl :: D)))).length =
      A.length + B.length + C.length + D.length + 5 := by
  simp; omega

/-! ### Successful extraction of one well-formed record -/

theorem fq_next_exact (A B C Q tail : List Nat) (last : Bool)
    (hA : ∀ c ∈ A, c ≠ bNl) (hB : ∀ c ∈ B, ¬(c = bNl ∨ c = bPlus)) (hC : ∀ c ∈ C, c ≠ bNl)
    (hQlen : Q.length = B.length)
    (hQlast : ¬((stripCr Q).getLast? = some bNl))
    (htail : tail = [] ∨ ∃ t, tail = bAt :: t) :
    fq_next (bAt :: (A ++ bNl :: (B ++ bNl :: bPlus :: (C ++ bNl :: (Q ++ bNl :: tail))))) last =
      (some (Except.ok ⟨stripCr A, stripCr B, bPlus :: C, stripCr Q⟩),
        A.length + B.length + C.length + Q.length + 6) := by
  rw [fq_next_structured A B C (Q ++ bNl :: tail) last hA hB hC]
  have hlenL : (bAt :: (A ++ bNl :: (B ++ bNl :: bPlus :: (C ++ bNl :: (Q ++ bNl :: tail))))).length =
      A.length + B.length + C.length + Q.length + tail.length + 6 := by
    rw [length_structured A B C (Q ++ bNl :: tail)]
    simp only [List.length_append, List.length_cons]
    omega
  simp only [fq_rest]
  rw [slice_structured_id, slice_structured_seq, slice_structured_id2]
  rw [if_neg (by omega :
    ¬(A.length + B.length + C.length + 5 + B.length + 1 >
      (bAt :: (A ++ bNl :: (B ++ bNl :: bPlus :: (C ++ bNl :: (Q ++ bNl :: tail))))).length))]
  simp only [fq_check]
  rw [show slice (bAt :: (A ++ bNl :: (B ++ bNl :: bPlus :: (C ++ bNl :: (Q ++ bNl :: tail)))))
      (A.length + B.length + C.length + 5)
      (A.length + B.length + C.length + 5 + B.length + 1 - 1) = Q from by
    show ((bAt :: (A ++ bNl :: (B ++ bNl :: bPlus :: (C ++ bNl :: (Q ++ bNl :: tail))))).drop
        (A.length + B.length + C.length + 5)).take _ = Q
    rw [drop_structured_tail A B C (Q ++ bNl :: tail)]
    exact take_exact Q (bNl :: tail) _ (by omega)]
  have hnlpos : (bAt :: (A ++ bNl :: (B ++ bNl :: bPlus :: (C ++ bNl :: (Q ++ bNl :: tail))))).getD
      (A.length + B.length + C.length + 5 + B.length + 1 - 1) 0 = bNl := by
    have h : bAt :: (A ++ bNl :: (B ++ bNl :: bPlus :: (C ++ bNl :: (Q ++ bNl :: tail)))) =
        (bAt :: A ++ bNl :: B ++ bNl :: bPlus :: C ++ bNl :: Q) ++ bNl :: tail := by simp
    rw [h]
    exact getD_at _ _ _ _ _ (by simp; omega)
  rw [if_neg]
  · rw [if_neg hQlast]
    rw [show A.length + B.length + C.length + 5 + B.length + 1 =
      A.length + B.length + C.length + Q.length + 6 from by omega]
  · rintro (⟨h1, h2, _, _⟩ | ⟨h1, h2⟩)
    · rcases htail with rfl | ⟨t, rfl⟩
      · simp only [List.length_nil] at hlenL
        omega
      · have : (bAt :: (A ++ bNl :: (B ++ bNl :: bPlus :: (C ++ bNl :: (Q ++ bNl :: bAt :: t))))).getD
            (A.length + B.length + C.length + 5 + B.length + 1) 0 = bAt := by
          have h : bAt :: (A ++ bNl :: (B ++ bNl :: bPlus :: (C ++ bNl :: (Q ++ bNl :: bAt :: t)))) =
              (bAt :: A ++ bNl :: B ++ bNl :: bPlus :: C ++ bNl :: Q ++ [bNl]) ++ bAt :: t := by
            simp
          rw [h]
          exact getD_at _ _ _ _ _ (by simp; omega)
        exact h2 this
    · rcases htail with rfl | ⟨t, rfl⟩
      · simp only [List.length_nil] at hlenL
        omega
      · exact h2 hnlpos

/-! ### Encoding well-formed records -/

theorem fq_next_encodeRec (r : FastqRecord) (c : Bool) (tail : List Nat) (last : Bool)
    (hv : validRec r) (htail : tail = [] ∨ ∃ t, tail = bAt :: t) :
    fq_next (encodeRec r c ++ tail) last =
      (some (Except.ok (recView r c)), (encodeRec r c).length) := by
  obtain ⟨hid, hseq, hid2, hqual, hplus, hlen⟩ := hv
  cases c with
  | false =>
    have hb : encodeRec r false ++ tail =
        bAt :: (r.id ++ bNl :: (r.seq ++ bNl :: bPlus ::
          (r.id2 ++ bNl :: (r.qual ++ bNl :: tail)))) := by
      simp [encodeRec, term]
    rw [hb, fq_next_exact r.id r.seq r.id2 r.qual tail last
      (fun x hx => (hid x hx).1)
      (fun x hx => by
        rintro (h | h)
        · exact (hseq x hx).1 h
        · exact hplus (h ▸ hx))
      (fun x hx => (hid2 x hx).1)
      (by omega)
      (by
        rw [stripCr_clean r.qual (fun x hx => (hqual x hx).2)]
        exact getLast?_ne_of_clean r.qual bNl (fun x hx => (hqual x hx).1))
      htail]
    rw [stripCr_clean r.id (fun x hx => (hid x hx).2),
      stripCr_clean r.seq (fun x hx => (hseq x hx).2),
      stripCr_clean r.qual (fun x hx => (hqual x hx).2)]
    simp [recView, crOpt, encodeRec, term]
    omega
  | true =>
    have hb : encodeRec r true ++ tail =
        bAt :: ((r.id ++ [bCr]) ++ bNl :: ((r.seq ++ [bCr]) ++ bNl :: bPlus ::
          ((r.id2 ++ [bCr]) ++ bNl :: ((r.qual ++ [bCr]) ++ bNl :: tail)))) := by
      simp [encodeRec, term]
    rw [hb, fq_next_exact (r.id ++ [bCr]) (r.seq ++ [bCr]) (r.id2 ++ [bCr]) (r.qual ++ [bCr])
      tail last
      (fun x hx => by
        rcases List.mem_append.1 hx with hx | hx
        · exact (hid x hx).1
        · simp at hx
          subst hx
          decide)
      (fun x hx => by
        rcases List.mem_append.1 hx with hx | hx
        · rintro (h | h)
          · exact (hseq x hx).1 h
          · exact hplus (h ▸ hx)
        · simp at hx
          subst hx
          decide)
      (fun x hx => by
        rcases List.mem_append.1 hx with hx | hx
        · exact (hid2 x hx).1
        · simp at hx
          subst hx
          decide)
      (by simp; omega)
      (by
        rw [stripCr_concat]
        exact getLast?_ne_of_clean r.qual bNl (fun x hx => (hqual x hx).1))
      htail]
    rw [stripCr_concat, stripCr_concat, stripCr_concat]
    simp [recView, crOpt, encodeRec, term]
    omega

theorem encodeList_shape (rs : List (FastqRecord × Bool)) :
    encodeList rs = [] ∨ ∃ t, encodeList rs = bAt :: t := by
  cases rs with
  | nil => exact Or.inl rfl
  | cons x rest =>
    obtain ⟨r, c⟩ := x
    exact Or.inr ⟨_, rfl⟩

theorem encodeList_append (rs rs' : List (FastqRecord × Bool)) :
    encodeList (rs ++ rs') = encodeList rs ++ encodeList rs' := by
  induction rs with
  | nil => simp [encodeList]
  | cons x rest ih =>
    obtain ⟨r, c⟩ := x
    simp [encodeList, ih]

theorem length_le_encodeList (rs : List (FastqRecord × Bool)) :
    rs.length ≤ (encodeList rs).length := by
  induction rs with
  | nil => simp [encodeList]
  | cons x rest ih =>
    obtain ⟨r, c⟩ := x
    have h1 : 1 ≤ (encodeRec r c).length := by
      simp only [encodeRec, List.length_cons]
      omega
    simp only [encodeList, List.length_append, List.length_cons]
    omega

theorem fq_all_encodeList (rs : List (FastqRecord × Bool)) (last : Bool) (fuel : Nat)
    (hv : ∀ x ∈ rs, validRec x.1) (hfuel : rs.length < fuel) :
    fq_all last fuel (encodeList rs) =
      (rs.map (fun x => recView x.1 x.2), (encodeList rs).length, none) := by
  induction rs generalizing fuel with
  | nil =>
    cases fuel with
    | zero => omega
    | succ f => simp [fq_all, fq_next, encodeList]
  | cons x rest ih =>
    cases fuel with
    | zero => omega
    | succ f =>
    obtain ⟨r, c⟩ := x
    have hstep := fq_next_encodeRec r c (encodeList rest) last
      (hv (r, c) (List.mem_cons_self _ _)) (encodeList_shape rest)
    have hdrop : (encodeRec r c ++ encodeList rest).drop (encodeRec r c).length =
        encodeList rest := drop_exact _ _ _ rfl
    simp only [encodeList, fq_all, hstep, hdrop]
    rw [ih f (fun y hy => hv y (List.mem_cons_of_mem _ hy))
      (by simp only [List.length_cons] at hfuel; omega)]
    simp [List.length_append]

/-! ### Truncated records yield no record on a non-final chunk -/

theorem take_split (l m : List Nat) (n : Nat) (h : l.length ≤ n) :
    (l ++ m).take n = l ++ m.take (n - l.length) := by
  obtain ⟨k, rfl⟩ : ∃ k, n = l.length + k := ⟨n - l.length, by omega⟩
  rw [List.take_append, Nat.add_sub_cancel_left]

theorem drop_split (l m : List Nat) (n : Nat) (h : l.length ≤ n) :
    (l ++ m).drop n = m.drop (n - l.length) := by
  obtain ⟨k, rfl⟩ : ∃ k, n = l.length + k := ⟨n - l.length, by omega⟩
  rw [List.drop_append, Nat.add_sub_cancel_left]

theorem clean_cons_at (A : List Nat) (hA : ∀ x ∈ A, x ≠ bNl) : ∀ x ∈ bAt :: A, x ≠ bNl := by
  intro x hx
  rcases List.mem_cons.1 hx with rfl | hx
  · decide
  · exact hA x hx

theorem fq_next_eq_none_1 (b : Nat) (rest : List Nat) (last : Bool) (hb : ¬(b = bNl))
    (h1 : memchr bNl (b :: rest) = none) :
    fq_next (b :: rest) last = (none, 0) := by
  simp only [fq_next, h1, if_neg hb]

theorem fq_next_eq_none_2 (b : Nat) (rest : List Nat) (last : Bool) (i : Nat) (hb : ¬(b = bNl))
    (h1 : memchr bNl (b :: rest) = some i)
    (h2 : memchr_both bNl bPlus ((b :: rest).drop (i + 1)) = none) :
    fq_next (b :: rest) last = (none, 0) := by
  simp only [fq_next, h1, h2, if_neg hb]

theorem fq_next_eq_none_3 (b : Nat) (rest : List Nat) (last : Bool) (i j : Nat)
    (hb : ¬(b = bNl))
    (h1 : memchr bNl (b :: rest) = some i)
    (h2 : memchr_both bNl bPlus ((b :: rest).drop (i + 1)) = some j)
    (h3 : memchr bNl ((b :: rest).drop (i + 1 + j + 1)) = none) :
    fq_next (b :: rest) last = (none, 0) := by
  simp only [fq_next, h1, h2, h3, if_neg hb]

theorem fq_next_take_exact (A B C Q : List Nat) (n : Nat)
    (hA : ∀ x ∈ A, x ≠ bNl) (hB : ∀ x ∈ B, ¬(x = bNl ∨ x = bPlus)) (hC : ∀ x ∈ C, x ≠ bNl)
    (hQlen : Q.length = B.length)
    (hn : n < A.length + B.length + C.length + Q.length + 6) :
    fq_next ((bAt :: (A ++ bNl :: (B ++ bNl :: bPlus :: (C ++ bNl :: (Q ++ [bNl]))))).take n)
      false = (none, 0) := by
  rcases Nat.eq_zero_or_pos n with rfl | hn0
  · simp [fq_next]
  by_cases h1 : n ≤ A.length + 1
  · -- the header line's terminator is not yet in the buffer
    obtain ⟨m, rfl⟩ : ∃ m, n = m + 1 := ⟨n - 1, by omega⟩
    have hsplit : (bAt :: (A ++ bNl :: (B ++ bNl :: bPlus :: (C ++ bNl :: (Q ++ [bNl]))))).take
        (m + 1) = bAt :: A.take m := by
      rw [List.take_succ_cons]
      rw [List.take_append_of_le_length (by omega)]
    rw [hsplit]
    have hmem : memchr bNl (bAt :: A.take m) = none :=
      memchr_none _ _ (clean_cons_at _ (fun x hx => hA x (List.take_subset m A hx)))
    exact fq_next_eq_none_1 bAt _ false (by decide) hmem
  by_cases h2 : n ≤ A.length + B.length + 2
  · -- header complete, sequence-line terminator not yet in the buffer
    have hsplit : (bAt :: (A ++ bNl :: (B ++ bNl :: bPlus :: (C ++ bNl :: (Q ++ [bNl]))))).take
        n = bAt :: (A ++ bNl :: B.take (n - (A.length + 2))) := by
      have hform : bAt :: (A ++ bNl :: (B ++ bNl :: bPlus :: (C ++ bNl :: (Q ++ [bNl])))) =
          ((bAt :: A) ++ [bNl]) ++ (B ++ (bNl :: bPlus :: (C ++ bNl :: (Q ++ [bNl])))) := by simp
      rw [hform, take_split _ _ _ (by simp; omega)]
      rw [List.take_append_of_le_length (by simp; omega)]
      rw [show n - ((bAt :: A) ++ [bNl]).length = n - (A.length + 2) from by simp]
      simp
    rw [hsplit]
    have hmem : memchr bNl (bAt :: (A ++ bNl :: B.take (n - (A.length + 2)))) =
        some (A.length + 1) := by
      have := memchr_hit bNl (bAt :: A) (B.take (n - (A.length + 2))) (clean_cons_at _ hA)
      simpa using this
    have hdrop : (bAt :: (A ++ bNl :: B.take (n - (A.length + 2)))).drop
        (A.length + 1 + 1) = B.take (n - (A.length + 2)) := by
      rw [show bAt :: (A ++ bNl :: B.take (n - (A.length + 2))) =
        ((bAt :: A) ++ [bNl]) ++ B.take (n - (A.length + 2)) from by simp]
      exact drop_exact _ _ _ (by simp)
    have hmem2 : memchr_both bNl bPlus (B.take (n - (A.length + 2))) = none :=
      memchr_both_none _ _ _ (fun x hx => hB x (List.take_subset _ B hx))
    exact fq_next_eq_none_2 bAt _ false (A.length + 1) (by decide) hmem
      (by rw [hdrop]; exact hmem2)
  by_cases h3 : n ≤ A.length + B.length + C.length + 4
  · -- sequence complete, second-header terminator not yet in the buffer
    have hsplit : (bAt :: (A ++ bNl :: (B ++ bNl :: bPlus :: (C ++ bNl :: (Q ++ [bNl]))))).take
        n = ((bAt :: A) ++ bNl :: B ++ [bNl]) ++
          (bPlus :: C).take (n - (A.length + B.length + 3)) := by
      have hform : bAt :: (A ++ bNl :: (B ++ bNl :: bPlus :: (C ++ bNl :: (Q ++ [bNl])))) =
          ((bAt :: A) ++ bNl :: B ++ [bNl]) ++ ((bPlus :: C) ++ (bNl :: (Q ++ [bNl]))) := by simp
      rw [hform, take_split _ _ _ (by simp; omega)]
      rw [List.take_append_of_le_length (by simp; omega)]
      rw [show n - ((bAt :: A) ++ bNl :: B ++ [bNl]).length =
        n - (A.length + B.length + 3) from by simp; ring_nf]
    rw [hsplit]
    have hform2 : ((bAt :: A) ++ bNl :: B ++ [bNl]) ++
        (bPlus :: C).take (n - (A.length + B.length + 3)) =
        bAt :: (A ++ bNl :: (B ++ bNl :: (bPlus :: C).take (n - (A.length + B.length + 3)))) := by
      simp
    rw [hform2]
    have hmem : memchr bNl (bAt ::
        (A ++ bNl :: (B ++ bNl :: (bPlus :: C).take (n - (A.length + B.length + 3))))) =
        some (A.length + 1) := by
      have := memchr_hit bNl (bAt :: A)
        (B ++ bNl :: (bPlus :: C).take (n - (A.length + B.length + 3))) (clean_cons_at _ hA)
      simpa using this
    have hdrop : (bAt ::
        (A ++ bNl :: (B ++ bNl :: (bPlus :: C).take (n - (A.length + B.length + 3))))).drop
        (A.length + 1 + 1) = B ++ bNl :: (bPlus :: C).take (n - (A.length + B.length + 3)) := by
      rw [show bAt ::
        (A ++ bNl :: (B ++ bNl :: (bPlus :: C).take (n - (A.length + B.length + 3)))) =
        ((bAt :: A) ++ [bNl]) ++ (B ++ bNl :: (bPlus :: C).take (n - (A.length + B.length + 3)))
        from by simp]
      exact drop_exact _ _ _ (by simp)
    have hmem2 : memchr_both bNl bPlus
        (B ++ bNl :: (bPlus :: C).take (n - (A.length + B.length + 3))) = some B.length :=
      memchr_both_hit _ _ _ _ hB
    have hdrop2 : (bAt ::
        (A ++ bNl :: (B ++ bNl :: (bPlus :: C).take (n - (A.length + B.length + 3))))).drop
        (A.length + 1 + 1 + B.length + 1) =
        (bPlus :: C).take (n - (A.length + B.length + 3)) := by
      rw [show bAt ::
        (A ++ bNl :: (B ++ bNl :: (bPlus :: C).take (n - (A.length + B.length + 3)))) =
        ((bAt :: A) ++ bNl :: B ++ [bNl]) ++ (bPlus :: C).take (n - (A.length + B.length + 3))
        from by simp]
      exact drop_exact _ _ _ (by simp; omega)
    have hmem3 : memchr bNl ((bPlus :: C).take (n - (A.length + B.length + 3))) = none :=
      memchr_none _ _ (fun x hx => by
        have hx' := List.take_subset _ _ hx
        rcases List.mem_cons.1 hx' with rfl | hx''
        · decide
        · exact hC x hx'')
    exact fq_next_eq_none_3 bAt _ false (A.length + 1) B.length (by decide) hmem
      (by rw [hdrop]; exact hmem2) (by rw [hdrop2]; exact hmem3)
  · -- all three lines complete; arithmetic shortfall on a non-final chunk
    have hsplit : (bAt :: (A ++ bNl :: (B ++ bNl :: bPlus :: (C ++ bNl :: (Q ++ [bNl]))))).take
        n = ((bAt :: A) ++ bNl :: B ++ bNl :: bPlus :: C ++ [bNl]) ++
          (Q ++ [bNl]).take (n - (A.length + B.length + C.length + 5)) := by
      have hform : bAt :: (A ++ bNl :: (B ++ bNl :: bPlus :: (C ++ bNl :: (Q ++ [bNl])))) =
          ((bAt :: A) ++ bNl :: B ++ bNl :: bPlus :: C ++ [bNl]) ++ (Q ++ [bNl]) := by simp
      rw [hform, take_split _ _ _ (by simp; omega)]
      rw [show n - ((bAt :: A) ++ bNl :: B ++ bNl :: bPlus :: C ++ [bNl]).length =
        n - (A.length + B.length + C.length + 5) from by simp; ring_nf]
    rw [hsplit]
    have hform2 : ((bAt :: A) ++ bNl :: B ++ bNl :: bPlus :: C ++ [bNl]) ++
        (Q ++ [bNl]).take (n - (A.length + B.length + C.length + 5)) =
        bAt :: (A ++ bNl :: (B ++ bNl :: bPlus :: (C ++ bNl ::
          (Q ++ [bNl]).take (n - (A.length + B.length + C.length + 5))))) := by
      simp
    rw [hform2]
    rw [fq_next_structured A B C _ false hA hB hC]
    have hlenT := length_structured A B C
      ((Q ++ [bNl]).take (n - (A.length + B.length + C.length + 5)))
    simp only [fq_rest]
    rw [slice_structured_seq]
    rw [if_pos]
    · simp
    · rw [hlenT]
      have : ((Q ++ [bNl]).take (n - (A.length + B.length + C.length + 5))).length ≤
          n - (A.length + B.length + C.length + 5) := by
        rw [List.length_take]
        omega
      omega

theorem fq_next_take_encodeRec (r : FastqRecord) (c : Bool) (rest : List Nat) (n : Nat)
    (hv : validRec r) (hn : n < (encodeRec r c).length) :
    fq_next ((encodeRec r c ++ rest).take n) false = (none, 0) := by
  obtain ⟨hid, hseq, hid2, hqual, hplus, hlen⟩ := hv
  rw [List.take_append_of_le_length (Nat.le_of_lt hn)]
  cases c with
  | false =>
    rw [show encodeRec r false = bAt :: (r.id ++ bNl :: (r.seq ++ bNl :: bPlus ::
      (r.id2 ++ bNl :: (r.qual ++ [bNl])))) from by simp [encodeRec, term]]
    refine fq_next_take_exact r.id r.seq r.id2 r.qual n
      (fun x hx => (hid x hx).1)
      (fun x hx => by
        rintro (h | h)
        · exact (hseq x hx).1 h
        · exact hplus (h ▸ hx))
      (fun x hx => (hid2 x hx).1)
      (by omega) ?_
    have : (encodeRec r false).length =
        r.id.length + r.seq.length + r.id2.length + r.qual.length + 6 := by
      simp [encodeRec, term]
      omega
    omega
  | true =>
    rw [show encodeRec r true = bAt :: ((r.id ++ [bCr]) ++ bNl :: ((r.seq ++ [bCr]) ++ bNl ::
      bPlus :: ((r.id2 ++ [bCr]) ++ bNl :: ((r.qual ++ [bCr]) ++ [bNl]))))
      from by simp [encodeRec, term]]
    refine fq_next_take_exact (r.id ++ [bCr]) (r.seq ++ [bCr]) (r.id2 ++ [bCr])
      (r.qual ++ [bCr]) n
      (fun x hx => by
        rcases List.mem_append.1 hx with hx | hx
        · exact (hid x hx).1
        · simp at hx
          subst hx
          decide)
      (fun x hx => by
        rcases List.mem_append.1 hx with hx | hx
        · rintro (h | h)
          · exact (hseq x hx).1 h
          · exact hplus (h ▸ hx)
        · simp at hx
          subst hx
          decide)
      (fun x hx => by
        rcases List.mem_append.1 hx with hx | hx
        · exact (hid2 x hx).1
        · simp at hx
          subst hx
          decide)
      (by simp; omega) ?_
    have : (encodeRec r true).length =
        r.id.length + r.seq.length + r.id2.length + r.qual.length + 10 := by
      simp [encodeRec, term]
      omega
    simp only [List.length_append, List.length_cons, List.length_nil]
    omega

/-! ### Splitting an encoded stream at an arbitrary byte offset -/

theorem encTake_append_encDrop (rs : List (FastqRecord × Bool)) (n : Nat) :
    encTake rs n ++ encDrop rs n = rs := by
  induction rs generalizing n with
  | nil => rfl
  | cons x xs ih =>
    by_cases hc : (encodeRec x.1 x.2).length ≤ n
    · simp only [encTake, encDrop, if_pos hc, List.cons_append, ih]
    · simp only [encTake, encDrop, if_neg hc, List.nil_append]

theorem encodeList_take_shape (xs : List (FastqRecord × Bool)) (m : Nat) :
    (encodeList xs).take m = [] ∨ ∃ t, (encodeList xs).take m = bAt :: t := by
  rcases encodeList_shape xs with h | ⟨t, h⟩
  · rw [h]
    exact Or.inl (by simp)
  · rcases Nat.eq_zero_or_pos m with rfl | hm
    · exact Or.inl (by simp)
    · obtain ⟨k, rfl⟩ : ∃ k, m = k + 1 := ⟨m - 1, by omega⟩
      rw [h, List.take_succ_cons]
      exact Or.inr ⟨_, rfl⟩

theorem fq_all_take_encodeList (rs : List (FastqRecord × Bool)) (n : Nat) (fuel : Nat)
    (hv : ∀ x ∈ rs, validRec x.1) (hfuel : (encTake rs n).length < fuel) :
    fq_all false fuel ((encodeList rs).take n) =
      ((encTake rs n).map (fun x => recView x.1 x.2),
        (encodeList (encTake rs n)).length, none) := by
  induction rs generalizing fuel n with
  | nil =>
    cases fuel with
    | zero => simp [encTake] at hfuel
    | succ f => simp [fq_all, fq_next, encodeList, encTake]
  | cons x xs ih =>
    cases fuel with
    | zero => omega
    | succ f =>
    obtain ⟨r, c⟩ := x
    by_cases hc : (encodeRec r c).length ≤ n
    · have hsplit : (encodeList ((r, c) :: xs)).take n =
          encodeRec r c ++ (encodeList xs).take (n - (encodeRec r c).length) := by
        simp only [encodeList]
        exact take_split _ _ _ hc
      have hstep := fq_next_encodeRec r c ((encodeList xs).take (n - (encodeRec r c).length))
        false (hv (r, c) (List.mem_cons_self _ _)) (encodeList_take_shape xs _)
      have hdrop : (encodeRec r c ++ (encodeList xs).take (n - (encodeRec r c).length)).drop
          (encodeRec r c).length = (encodeList xs).take (n - (encodeRec r c).length) :=
        drop_exact _ _ _ rfl
      rw [hsplit]
      simp only [fq_all, hstep, hdrop]
      rw [ih (n - (encodeRec r c).length) f
        (fun y hy => hv y (List.mem_cons_of_mem _ hy))
        (by simp only [encTake, if_pos hc, List.length_cons] at hfuel; omega)]
      simp only [encTake, if_pos hc, List.map_cons, encodeList, List.length_append]
    · have hnone := fq_next_take_encodeRec r c (encodeList xs) n
        (hv (r, c) (List.mem_cons_self _ _)) (by omega)
      have hb : (encodeList ((r, c) :: xs)).take n =
          (encodeRec r c ++ encodeList xs).take n := by
        simp only [encodeList]
      rw [hb]
      simp only [fq_all, hnone]
      simp only [encTake, if_neg hc, List.map_nil, encodeList, List.length_nil]

theorem parseChunk_encodeList (rs : List (FastqRecord × Bool)) (last : Bool)
    (hv : ∀ x ∈ rs, validRec x.1) :
    parseChunk (encodeList rs) last =
      (rs.map (fun x => recView x.1 x.2), (encodeList rs).length, none) :=
  fq_all_encodeList rs last _ hv (Nat.lt_succ_of_le (length_le_encodeList rs))

/-! ### Cursor bounds -/

theorem fq_check_cases (buf id seq id2 : List Nat) (a b u : Nat) :
    (∃ e, fq_check buf id seq id2 a b u = (some (Except.error e), 0)) ∨
    (∃ rec, fq_check buf id seq id2 a b u = (some (Except.ok rec), u)) := by
  simp only [fq_check]
  split
  · exact Or.inl ⟨_, rfl⟩
  · split
    · exact Or.inl ⟨_, rfl⟩
    · exact Or.inr ⟨_, rfl⟩

theorem fq_rest_cases (buf : List Nat) (last : Bool) (a b c : Nat) :
    fq_rest buf last a b c = (none, 0) ∨
    (∃ e, fq_rest buf last a b c = (some (Except.error e), 0)) ∨
    (∃ rec u, fq_rest buf last a b c = (some (Except.ok rec), u) ∧ u ≤ buf.length) := by
  simp only [fq_rest]
  by_cases hgt : c + (slice buf a (b - 1)).length + 1 > buf.length
  · rw [if_pos hgt]
    by_cases hlast : last = false
    · rw [if_pos hlast]
      exact Or.inl rfl
    · rw [if_neg hlast]
      by_cases hne : c + (slice buf a (b - 1)).length + 1 ≠ buf.length + 1 +
          (if (slice buf a (b - 1)).getLast? = some bCr then 1 else 0)
      · rw [if_pos hne]
        exact Or.inl rfl
      · rw [if_neg hne]
        rw [Decidable.not_not] at hne
        rcases fq_check_cases buf (slice buf 1 (a - 1)) (slice buf a (b - 1))
            (slice buf b (c - 1)) c
            (c + (slice buf a (b - 1)).length + 1 -
              (if (slice buf a (b - 1)).getLast? = some bCr then 1 else 0))
            (c + (slice buf a (b - 1)).length + 1 - 1 -
              (if (slice buf a (b - 1)).getLast? = some bCr then 1 else 0)) with
          ⟨e, h⟩ | ⟨rec, h⟩
        · rw [h]
          exact Or.inr (Or.inl ⟨e, rfl⟩)
        · rw [h]
          refine Or.inr (Or.inr ⟨rec, _, rfl, ?_⟩)
          omega
  · rw [if_neg hgt]
    rcases fq_check_cases buf (slice buf 1 (a - 1)) (slice buf a (b - 1))
        (slice buf b (c - 1)) c
        (c + (slice buf a (b - 1)).length + 1)
        (c + (slice buf a (b - 1)).length + 1) with
      ⟨e, h⟩ | ⟨rec, h⟩
    · rw [h]
      exact Or.inr (Or.inl ⟨e, rfl⟩)
    · rw [h]
      refine Or.inr (Or.inr ⟨rec, _, rfl, ?_⟩)
      omega

theorem fq_next_cases (buf : List Nat) (last : Bool) :
    fq_next buf last = (none, 0) ∨
    (∃ e, fq_next buf last = (some (Except.error e), 0)) ∨
    (∃ rec u, fq_next buf last = (some (Except.ok rec), u) ∧ u ≤ buf.length) := by
  cases buf with
  | nil => exact Or.inl rfl
  | cons x rest =>
    simp only [fq_next]
    split
    · exact Or.inl rfl
    · split
      · exact Or.inl rfl
      · split
        · exact Or.inl rfl
        · split
          · exact Or.inl rfl
          · exact fq_rest_cases _ _ _ _ _

theorem fq_next_used_le (buf : List Nat) (last : Bool) :
    (fq_next buf last).2 ≤ buf.length := by
  rcases fq_next_cases buf last with h | ⟨e, h⟩ | ⟨rec, u, h, hu⟩ <;> rw [h]
  · exact Nat.zero_le _
  · exact Nat.zero_le _
  · exact hu

theorem fq_next_none_used (buf : List Nat) (last : Bool)
    (h : (fq_next buf last).1 = none) : (fq_next buf last).2 = 0 := by
  rcases fq_next_cases buf last with h' | ⟨e, h'⟩ | ⟨rec, u, h', hu⟩
  · rw [h']
  · rw [h']
  · rw [h'] at h
    simp at h

theorem fq_next_error_used (buf : List Nat) (last : Bool) (e : ParseError)
    (h : (fq_next buf last).1 = some (Except.error e)) : (fq_next buf last).2 = 0 := by
  rcases fq_next_cases buf last with h' | ⟨e', h'⟩ | ⟨rec, u, h', hu⟩
  · rw [h']
  · rw [h']
  · rw [h'] at h
    simp at h

theorem next_fst (p : FastqParser) : p.next.1 = (fq_next (p.buf.drop p.pos) p.last).1 := rfl

theorem next_pos (p : FastqParser) :
    p.next.2.pos = p.pos + (fq_next (p.buf.drop p.pos) p.last).2 := rfl

theorem next_buf (p : FastqParser) : p.next.2.buf = p.buf := rfl

theorem next_last (p : FastqParser) : p.next.2.last = p.last := rfl

theorem steps_succ (k : Nat) (p : FastqParser) :
    FastqParser.steps (k + 1) p = (FastqParser.steps k p).next.2 := by
  induction k generalizing p with
  | zero => rfl
  | succ k ih =>
    show FastqParser.steps (k + 1) p.next.2 = _
    rw [ih p.next.2]
    rfl

theorem steps_buf (k : Nat) (p : FastqParser) : (FastqParser.steps k p).buf = p.buf := by
  induction k generalizing p with
  | zero => rfl
  | succ k ih =>
    show (FastqParser.steps k p.next.2).buf = p.buf
    rw [ih p.next.2, next_buf]

theorem steps_pos_le (k : Nat) (p : FastqParser) (h : p.pos ≤ p.buf.length) :
    (FastqParser.steps k p).pos ≤ p.buf.length := by
  induction k with
  | zero => exact h
  | succ k ih =>
    rw [steps_succ, next_pos]
    have hle := fq_next_used_le ((FastqParser.steps k p).buf.drop (FastqParser.steps k p).pos)
      (FastqParser.steps k p).last
    rw [steps_buf] at hle
    have := List.length_drop (FastqParser.steps k p).pos p.buf
    rw [steps_buf]
    omega

/-! ### Quality longer than the sequence: always an error when the
quality line is newline-terminated -/

theorem getD_mem (l : List Nat) (n d : Nat) (h : n < l.length) : l.getD n d ∈ l := by
  induction l generalizing n with
  | nil => simp at h
  | cons x xs ih =>
    cases n with
    | zero => simp [List.getD]
    | succ m =>
      rw [List.getD_cons_succ]
      exact List.mem_cons_of_mem _ (ih m (by simpa using h))

theorem getD_split (l m : List Nat) (n k d : Nat) (h : n = l.length + k) :
    (l ++ m).getD n d = m.getD k d := by
  rw [List.getD_append_right l m d n (by omega)]
  congr 1
  omega

theorem fq_next_longer_exact (A B C Q tail : List Nat) (last : Bool)
    (hA : ∀ x ∈ A, x ≠ bNl) (hB : ∀ x ∈ B, ¬(x = bNl ∨ x = bPlus)) (hC : ∀ x ∈ C, x ≠ bNl)
    (hQlen : B.length < Q.length)
    (hQ : ∀ x ∈ Q, x ≠ bNl) :
    fq_next (bAt :: (A ++ bNl :: (B ++ bNl :: bPlus :: (C ++ bNl :: (Q ++ bNl :: tail))))) last =
      (some (Except.error ⟨"Sequence and quality lengths differed",
        ParseErrorType.InvalidRecord, A⟩), 0) := by
  rw [fq_next_structured A B C (Q ++ bNl :: tail) last hA hB hC]
  have hlenL : (bAt :: (A ++ bNl :: (B ++ bNl :: bPlus :: (C ++ bNl :: (Q ++ bNl :: tail))))).length =
      A.length + B.length + C.length + Q.length + tail.length + 6 := by
    rw [length_structured A B C (Q ++ bNl :: tail)]
    simp only [List.length_append, List.length_cons]
    omega
  simp only [fq_rest]
  rw [slice_structured_id, slice_structured_seq, slice_structured_id2]
  rw [if_neg (by omega :
    ¬(A.length + B.length + C.length + 5 + B.length + 1 >
      (bAt :: (A ++ bNl :: (B ++ bNl :: bPlus :: (C ++ bNl :: (Q ++ bNl :: tail))))).length))]
  simp only [fq_check]
  have hne : (bAt :: (A ++ bNl :: (B ++ bNl :: bPlus :: (C ++ bNl :: (Q ++ bNl :: tail))))).getD
      (A.length + B.length + C.length + 5 + B.length + 1 - 1) 0 ≠ bNl := by
    have hsplit : bAt :: (A ++ bNl :: (B ++ bNl :: bPlus :: (C ++ bNl :: (Q ++ bNl :: tail)))) =
        (bAt :: A ++ bNl :: B ++ bNl :: bPlus :: C ++ [bNl]) ++ (Q ++ bNl :: tail) := by simp
    rw [hsplit, getD_split _ _ _ B.length _ (by simp; omega)]
    rw [List.getD_append _ _ _ _ hQlen]
    exact hQ _ (getD_mem Q B.length 0 hQlen)
  rw [if_pos (Or.inr ⟨by omega, hne⟩)]

/-! ### Final record without trailing newline -/

theorem fq_next_noterm_exact (A B C Q : List Nat)
    (hA : ∀ x ∈ A, x ≠ bNl) (hB : ∀ x ∈ B, ¬(x = bNl ∨ x = bPlus)) (hC : ∀ x ∈ C, x ≠ bNl)
    (hwe : Q.length + (if B.getLast? = some bCr then 1 else 0) = B.length)
    (hQlast : ¬((stripCr Q).getLast? = some bNl)) :
    fq_next (bAt :: (A ++ bNl :: (B ++ bNl :: bPlus :: (C ++ bNl :: Q)))) true =
      (some (Except.ok ⟨stripCr A, stripCr B, bPlus :: C, stripCr Q⟩),
        A.length + B.length + C.length + Q.length + 5) ∧
    fq_next (bAt :: (A ++ bNl :: (B ++ bNl :: bPlus :: (C ++ bNl :: Q)))) false = (none, 0) := by
  have hlenL : (bAt :: (A ++ bNl :: (B ++ bNl :: bPlus :: (C ++ bNl :: Q)))).length =
      A.length + B.length + C.length + Q.length + 5 := length_structured A B C Q
  have hgt : A.length + B.length + C.length + 5 + B.length + 1 >
      (bAt :: (A ++ bNl :: (B ++ bNl :: bPlus :: (C ++ bNl :: Q)))).length := by
    rw [hlenL]
    omega
  constructor
  · rw [fq_next_structured A B C Q true hA hB hC]
    simp only [fq_rest]
    rw [slice_structured_id, slice_structured_seq, slice_structured_id2]
    rw [if_pos hgt]
    rw [if_neg (by decide : ¬(true = false))]
    rw [if_neg (fun h => h (by rw [hlenL]; omega) :
      ¬(A.length + B.length + C.length + 5 + B.length + 1 ≠
        (bAt :: (A ++ bNl :: (B ++ bNl :: bPlus :: (C ++ bNl :: Q)))).length + 1 +
          (if B.getLast? = some bCr then 1 else 0)))]
    simp only [fq_check]
    rw [show slice (bAt :: (A ++ bNl :: (B ++ bNl :: bPlus :: (C ++ bNl :: Q))))
        (A.length + B.length + C.length + 5)
        (A.length + B.length + C.length + 5 + B.length + 1 -
          (if B.getLast? = some bCr then 1 else 0) - 1) = Q from by
      show ((bAt :: (A ++ bNl :: (B ++ bNl :: bPlus :: (C ++ bNl :: Q)))).drop
        (A.length + B.length + C.length + 5)).take _ = Q
      rw [drop_structured_tail A B C Q]
      rw [show A.length + B.length + C.length + 5 + B.length + 1 -
        (if B.getLast? = some bCr then 1 else 0) - 1 -
        (A.length + B.length + C.length + 5) = Q.length from by omega]
      exact List.take_length Q]
    rw [if_neg]
    · rw [if_neg hQlast]
      rw [show A.length + B.length + C.length + 5 + B.length + 1 - 1 -
        (if B.getLast? = some bCr then 1 else 0) =
        A.length + B.length + C.length + Q.length + 5 from by omega]
    · rintro (⟨h1, _⟩ | ⟨h1, _⟩) <;> rw [hlenL] at h1 <;> omega
  · rw [fq_next_structured A B C Q false hA hB hC]
    simp only [fq_rest]
    rw [slice_structured_seq]
    rw [if_pos hgt, if_pos trivial]

/-! ### Quality one byte short, with a terminal newline -/

theorem fq_next_quality_short_gen (id seq id2 qual : List Nat)
    (hid : cleanLine id) (hseq : cleanLine seq) (hplus : bPlus ∉ seq) (hid2 : cleanLine id2)
    (hlen : qual.length + 1 = seq.length) :
    fq_next (bAt :: (id ++ bNl :: (seq ++ bNl :: bPlus :: (id2 ++ bNl :: (qual ++ [bNl]))))) true =
      (some (Except.error ⟨"Quality length was shorter than expected",
        ParseErrorType.InvalidRecord, id⟩), 0) := by
  have hA : ∀ x ∈ id, x ≠ bNl := fun x hx => (hid x hx).1
  have hB : ∀ x ∈ seq, ¬(x = bNl ∨ x = bPlus) := by
    intro x hx
    rintro (h | h)
    · exact (hseq x hx).1 h
    · exact hplus (h ▸ hx)
  have hC : ∀ x ∈ id2, x ≠ bNl := fun x hx => (hid2 x hx).1
  have hlenL : (bAt :: (id ++ bNl :: (seq ++ bNl :: bPlus ::
      (id2 ++ bNl :: (qual ++ [bNl]))))).length =
      id.length + seq.length + id2.length + qual.length + 6 := by
    rw [length_structured id seq id2 (qual ++ [bNl])]
    simp only [List.length_append, List.length_cons, List.length_nil]
    omega
  have hnotcr : ¬(seq.getLast? = some bCr) :=
    getLast?_ne_of_clean seq bCr (fun x hx => (hseq x hx).2)
  rw [fq_next_structured id seq id2 (qual ++ [bNl]) true hA hB hC]
  simp only [fq_rest]
  rw [slice_structured_id, slice_structured_seq, slice_structured_id2]
  rw [if_neg hnotcr]
  rw [if_pos (by rw [hlenL]; omega :
    id.length + seq.length + id2.length + 5 + seq.length + 1 >
      (bAt :: (id ++ bNl :: (seq ++ bNl :: bPlus :: (id2 ++ bNl :: (qual ++ [bNl]))))).length)]
  rw [if_neg (by decide : ¬(true = false))]
  rw [if_neg (fun h => h (by rw [hlenL]; omega) :
    ¬(id.length + seq.length + id2.length + 5 + seq.length + 1 ≠
      (bAt :: (id ++ bNl :: (seq ++ bNl :: bPlus ::
        (id2 ++ bNl :: (qual ++ [bNl]))))).length + 1 + 0))]
  simp only [fq_check]
  rw [show slice (bAt :: (id ++ bNl :: (seq ++ bNl :: bPlus :: (id2 ++ bNl :: (qual ++ [bNl])))))
      (id.length + seq.length + id2.length + 5)
      (id.length + seq.length + id2.length + 5 + seq.length + 1 - 0 - 1) = qual ++ [bNl] from by
    show ((bAt :: (id ++ bNl :: (seq ++ bNl :: bPlus ::
      (id2 ++ bNl :: (qual ++ [bNl]))))).drop
      (id.length + seq.length + id2.length + 5)).take _ = qual ++ [bNl]
    rw [drop_structured_tail id seq id2 (qual ++ [bNl])]
    rw [show id.length + seq.length + id2.length + 5 + seq.length + 1 - 0 - 1 -
      (id.length + seq.length + id2.length + 5) = (qual ++ [bNl]).length from by
        simp only [List.length_append, List.length_cons, List.length_nil]
        omega]
    exact List.take_length (qual ++ [bNl])]
  rw [if_neg]
  · rw [stripCr_clean id (fun x hx => (hid x hx).2)]
    rw [show stripCr (qual ++ [bNl]) = qual ++ [bNl] from by
      rw [stripCr, if_neg (by rw [List.getLast?_concat]; decide)]]
    rw [if_pos (List.getLast?_concat qual)]
  · rintro (⟨h1, _⟩ | ⟨h1, _⟩) <;> rw [hlenL] at h1 <;> omega

theorem fq_next_encodeRecNoTerm (r : FastqRecord) (c : Bool) (hv : validRec r) :
    fq_next (encodeRecNoTerm r c) true =
      (some (Except.ok (recView r c)), (encodeRecNoTerm r c).length) ∧
    fq_next (encodeRecNoTerm r c) false = (none, 0) := by
  obtain ⟨hid, hseq, hid2, hqual, hplus, hlen⟩ := hv
  have hqc : stripCr r.qual = r.qual := stripCr_clean r.qual (fun x hx => (hqual x hx).2)
  have hql : ¬((stripCr r.qual).getLast? = some bNl) := by
    rw [hqc]
    exact getLast?_ne_of_clean r.qual bNl (fun x hx => (hqual x hx).1)
  cases c with
  | false =>
    have hb : encodeRecNoTerm r false =
        bAt :: (r.id ++ bNl :: (r.seq ++ bNl :: bPlus :: (r.id2 ++ bNl :: r.qual))) := by
      simp [encodeRecNoTerm, term]
    have hmain := fq_next_noterm_exact r.id r.seq r.id2 r.qual
      (fun x hx => (hid x hx).1)
      (fun x hx => by
        rintro (h | h)
        · exact (hseq x hx).1 h
        · exact hplus (h ▸ hx))
      (fun x hx => (hid2 x hx).1)
      (by
        rw [if_neg (getLast?_ne_of_clean r.seq bCr (fun x hx => (hseq x hx).2))]
        omega)
      hql
    rw [hb]
    rw [hmain.1, hmain.2]
    rw [stripCr_clean r.id (fun x hx => (hid x hx).2),
      stripCr_clean r.seq (fun x hx => (hseq x hx).2), hqc]
    refine ⟨?_, rfl⟩
    simp [recView, crOpt, encodeRecNoTerm, term]
    omega
  | true =>
    have hb : encodeRecNoTerm r true =
        bAt :: ((r.id ++ [bCr]) ++ bNl :: ((r.seq ++ [bCr]) ++ bNl :: bPlus ::
          ((r.id2 ++ [bCr]) ++ bNl :: r.qual))) := by
      simp [encodeRecNoTerm, term]
    have hmain := fq_next_noterm_exact (r.id ++ [bCr]) (r.seq ++ [bCr]) (r.id2 ++ [bCr]) r.qual
      (fun x hx => by
        rcases List.mem_append.1 hx with hx | hx
        · exact (hid x hx).1
        · simp at hx
          subst hx
          decide)
      (fun x hx => by
        rcases List.mem_append.1 hx with hx | hx
        · rintro (h | h)
          · exact (hseq x hx).1 h
          · exact hplus (h ▸ hx)
        · simp at hx
          subst hx
          decide)
      (fun x hx => by
        rcases List.mem_append.1 hx with hx | hx
        · exact (hid2 x hx).1
        · simp at hx
          subst hx
          decide)
      (by
        rw [if_pos (List.getLast?_concat r.seq)]
        simp only [List.length_append, List.length_cons, List.length_nil]
        omega)
      hql
    rw [hb]
    rw [hmain.1, hmain.2]
    rw [stripCr_concat, stripCr_concat, hqc]
    refine ⟨?_, rfl⟩
    simp [recView, crOpt, encodeRecNoTerm, term]
    omega

/-! ### reassembling split streams -/

theorem encodeList_encTake_le (rs : List (FastqRecord × Bool)) (n : Nat) :
    (encodeList (encTake rs n)).length ≤ n := by
  induction rs generalizing n with
  | nil => simp [encTake, encodeList]
  | cons x xs ih =>
    obtain ⟨r, c⟩ := x
    by_cases hc : (encodeRec r c).length ≤ n
    · simp only [encTake, if_pos hc, encodeList, List.length_append]
      have := ih (n - (encodeRec r c).length)
      omega
    · simp only [encTake, if_neg hc, encodeList, List.length_nil]
      omega

/-! ## Claims -/

/-- Claim C1: for every chunk consisting of well-formed four-line FASTQ
records, successive `next` calls yield each record's fields
byte-for-byte, with one trailing carriage-return stripped independently
from id, sequence, and quality; in particular the given final-chunk
input yields exactly the two stated records. -/
theorem fastq_c1_wellformed_extraction :
    (∀ rs : List (FastqRecord × Bool), (∀ x ∈ rs, validRec x.1) →
      parseChunk (encodeList rs) true =
        (rs.map (fun x => recView x.1 x.2), (encodeList rs).length, none)) ∧
    parseChunk (bytes "@t\nAGCT\n+t\n~~a!\n@t2\nTGCA\n+t\nWUI9") true =
      ([⟨bytes "t", bytes "AGCT", bytes "+t", bytes "~~a!"⟩,
        ⟨bytes "t2", bytes "TGCA", bytes "+t", bytes "WUI9"⟩], 32, none) :=
  ⟨fun rs hv => parseChunk_encodeList rs true hv, by decide⟩

/-- Witness for C1 at a concrete record list. -/
theorem fastq_c1_witness :
    parseChunk (encodeList sampleRecs) true =
      (sampleRecs.map (fun x => recView x.1 x.2), (encodeList sampleRecs).length, none) :=
  fastq_c1_wellformed_extraction.1 sampleRecs (by decide)

/-- Claim C2: splitting a valid multi-record input at any byte offset
into a non-final chunk followed (after discarding the consumed bytes) by
a final chunk yields, concatenating both passes, the same record
sequence as parsing the whole input as one final chunk, and the
end-of-input validator accepts the final tail. -/
theorem fastq_c2_split_concat (rs : List (FastqRecord × Bool)) (n : Nat)
    (hv : ∀ x ∈ rs, validRec x.1) (hmulti : 2 ≤ rs.length) :
    ∃ R1 u R2 u2,
      parseChunk ((encodeList rs).take n) false = (R1, u, none) ∧
      parseChunk ((encodeList rs).drop u) true = (R2, u2, none) ∧
      u + u2 = (encodeList rs).length ∧
      R1 ++ R2 = (parseChunk (encodeList rs) true).1 ∧
      check_end (((encodeList rs).drop u).drop u2) true = Except.ok () := by
  have hsplitlist : encodeList (encTake rs n) ++ encodeList (encDrop rs n) = encodeList rs := by
    rw [← encodeList_append, encTake_append_encDrop]
  have hvd : ∀ x ∈ encDrop rs n, validRec x.1 := fun x hx =>
    hv x (by rw [← encTake_append_encDrop rs n]; exact List.mem_append_right _ hx)
  have hdrop : (encodeList rs).drop (encodeList (encTake rs n)).length =
      encodeList (encDrop rs n) := by
    rw [← hsplitlist]
    exact drop_exact _ _ _ rfl
  have h3 : (encodeList (encTake rs n)).length ≤ (encodeList rs).length := by
    rw [← hsplitlist]
    simp only [List.length_append]
    omega
  refine ⟨(encTake rs n).map (fun x => recView x.1 x.2), (encodeList (encTake rs n)).length,
    (encDrop rs n).map (fun x => recView x.1 x.2), (encodeList (encDrop rs n)).length,
    ?_, ?_, ?_, ?_, ?_⟩
  · show fq_all false (((encodeList rs).take n).length + 1) ((encodeList rs).take n) = _
    refine fq_all_take_encodeList rs n _ hv ?_
    have h1 := encodeList_encTake_le rs n
    have h2 := length_le_encodeList (encTake rs n)
    rw [List.length_take]
    omega
  · rw [hdrop]
    exact parseChunk_encodeList (encDrop rs n) true hvd
  · rw [← hsplitlist]
    simp [List.length_append]
  · rw [parseChunk_encodeList rs true hv]
    show _ = rs.map _
    rw [← List.map_append, encTake_append_encDrop]
  · rw [hdrop, List.drop_eq_nil_of_le (Nat.le_refl _)]
    rfl

/-- Witness for C2 at a concrete two-record input split at offset 7. -/
theorem fastq_c2_witness :
    ∃ R1 u R2 u2,
      parseChunk ((encodeList sampleRecs).take 7) false = (R1, u, none) ∧
      parseChunk ((encodeList sampleRecs).drop u) true = (R2, u2, none) ∧
      u + u2 = (encodeList sampleRecs).length ∧
      R1 ++ R2 = (parseChunk (encodeList sampleRecs) true).1 ∧
      check_end (((encodeList sampleRecs).drop u).drop u2) true = Except.ok () :=
  fastq_c2_split_concat sampleRecs 7 (by decide) (by decide)

/-- Claim C3 counterexample: a final record whose quality line ("II") is
longer than its sequence line ("A"), in a final chunk without a trailing
newline, is yielded as a record instead of an `InvalidRecord` error. -/
theorem fastq_c3_counterexample :
    (fq_next (bytes "@t\nA\n+\nII") true).1 =
      some (Except.ok ⟨bytes "t", bytes "A", bytes "+", bytes "I"⟩) := by decide

/-- Claim C3 (amended): a record whose newline-terminated quality line is
longer than its sequence line yields `InvalidRecord` with the message
"Sequence and quality lengths differed" and the record's id as context,
at any record position (any following bytes, final or not); the
quality-shorter direction and the final-record-without-newline case are
not uniformly detected (see the counterexample). -/
theorem fastq_c3_amended (id seq id2 qual tail : List Nat) (last : Bool)
    (hid : cleanLine id) (hseq : cleanLine seq) (hplus : bPlus ∉ seq) (hid2 : cleanLine id2)
    (hqual : cleanLine qual) (hlonger : seq.length < qual.length) :
    fq_next (bAt :: (id ++ bNl :: (seq ++ bNl :: bPlus :: (id2 ++ bNl :: (qual ++ bNl :: tail)))))
      last = (some (Except.error ⟨"Sequence and quality lengths differed",
        ParseErrorType.InvalidRecord, id⟩), 0) :=
  fq_next_longer_exact id seq id2 qual tail last
    (fun x hx => (hid x hx).1)
    (fun x hx => by
      rintro (h | h)
      · exact (hseq x hx).1 h
      · exact hplus (h ▸ hx))
    (fun x hx => (hid2 x hx).1)
    hlonger
    (fun x hx => (hqual x hx).1)

/-- Witness for C3 (amended) at a concrete mismatched record followed by
another record. -/
theorem fastq_c3_witness :
    fq_next (bAt :: (bytes "t" ++ bNl :: (bytes "A" ++ bNl :: bPlus ::
      ([] ++ bNl :: (bytes "III" ++ bNl :: bytes "@x\nG\n+\nE\n"))))) true =
      (some (Except.error ⟨"Sequence and quality lengths differed",
        ParseErrorType.InvalidRecord, bytes "t"⟩), 0) :=
  fastq_c3_amended (bytes "t") (bytes "A") [] (bytes "III") (bytes "@x\nG\n+\nE\n") true
    (by decide) (by decide) (by decide) (by decide) (by decide) (by decide)

/-- Claim C4 counterexample: a CRLF record whose bytes end at the quality
characters followed by a lone carriage-return (only the final `\n`
missing), with quality length equal to sequence length, yields no record
on a final chunk instead of being accepted. -/
theorem fastq_c4_counterexample :
    fq_next (bytes "@t\r\nA\r\n+\r\nI\r") true = (none, 0) := by decide

/-- Claim C4 (amended): a final record whose bytes end exactly at the
quality characters (the whole final terminator `\n` or `\r\n` missing)
and whose quality length matches its sequence length is accepted on a
final chunk, with the consumed count equal to the whole byte count; the
same bytes on a non-final chunk yield no record.  A quality line ending
in a lone `\r` in a CRLF record is not accepted (see counterexample). -/
theorem fastq_c4_amended (r : FastqRecord) (c : Bool) (hv : validRec r) :
    fq_next (encodeRecNoTerm r c) true =
      (some (Except.ok (recView r c)), (encodeRecNoTerm r c).length) ∧
    fq_next (encodeRecNoTerm r c) false = (none, 0) :=
  fq_next_encodeRecNoTerm r c hv

/-- Witness for C4 (amended) at a concrete record. -/
theorem fastq_c4_witness :
    fq_next (encodeRecNoTerm ⟨bytes "t", bytes "AGCT", [], bytes "IIII"⟩ true) true =
      (some (Except.ok (recView ⟨bytes "t", bytes "AGCT", [], bytes "IIII"⟩ true)),
        (encodeRecNoTerm ⟨bytes "t", bytes "AGCT", [], bytes "IIII"⟩ true).length) ∧
    fq_next (encodeRecNoTerm ⟨bytes "t", bytes "AGCT", [], bytes "IIII"⟩ true) false =
      (none, 0) :=
  fastq_c4_amended ⟨bytes "t", bytes "AGCT", [], bytes "IIII"⟩ true (by decide)

/-- Claim C5 (code bug): the tolerance branch for stray terminators at
end of file is dead — `buf[0] == b'\r' && buf[0] == b'\n'` is
unsatisfiable — so construction on a final chunk whose first byte is a
stray `\n` or `\r` fails with `InvalidHeader`, contradicting the code's
own comment ("sometimes there are extra returns at the end of a file so
we shouldn't blow up"). -/
theorem fastq_c5_dead_tolerance_branch :
    FastqParser.new (bytes "\n") true =
      some (Except.error ⟨"FASTQ record must start with '@'",
        ParseErrorType.InvalidHeader, bytes "\n"⟩) ∧
    FastqParser.new (bytes "\r") true =
      some (Except.error ⟨"FASTQ record must start with '@'",
        ParseErrorType.InvalidHeader, bytes "\r"⟩) := by decide

/-- Claim C6: a record whose quality line is exactly one character short
but still newline-terminated at the arithmetic offset yields
`InvalidRecord` with the message "Quality length was shorter than
expected" (distinct from the other length-mismatch message), the
record's id as context; in particular on `"@test\nAGCT\n+\nIII\n"`. -/
theorem fastq_c6_quality_short :
    (∀ id seq id2 qual : List Nat, cleanLine id → cleanLine seq → bPlus ∉ seq → cleanLine id2 →
      qual.length + 1 = seq.length →
      fq_next (bAt :: (id ++ bNl :: (seq ++ bNl :: bPlus :: (id2 ++ bNl :: (qual ++ [bNl])))))
        true = (some (Except.error ⟨"Quality length was shorter than expected",
          ParseErrorType.InvalidRecord, id⟩), 0)) ∧
    fq_next (bytes "@test\nAGCT\n+\nIII\n") true =
      (some (Except.error ⟨"Quality length was shorter than expected",
        ParseErrorType.InvalidRecord, bytes "test"⟩), 0) ∧
    "Quality length was shorter than expected" ≠ "Sequence and quality lengths differed" :=
  ⟨fun id seq id2 qual h1 h2 h3 h4 h5 => fq_next_quality_short_gen id seq id2 qual h1 h2 h3 h4 h5,
    by decide, by decide⟩

/-- Witness for C6 at the claim's concrete scenario. -/
theorem fastq_c6_witness :
    fq_next (bAt :: (bytes "test" ++ bNl :: (bytes "AGCT" ++ bNl :: bPlus ::
      ([] ++ bNl :: (bytes "III" ++ [bNl]))))) true =
      (some (Except.error ⟨"Quality length was shorter than expected",
        ParseErrorType.InvalidRecord, bytes "test"⟩), 0) :=
  fastq_c6_quality_short.1 (bytes "test") (bytes "AGCT") [] (bytes "III")
    (by decide) (by decide) (by decide) (by decide) (by decide)

/-- Claim C7 counterexample: on a CRLF input the yielded id2 field keeps
its trailing carriage-return (`"+x\r"`), so the results are not the
`\n`-only results with every `\r` removed from all yielded fields. -/
theorem fastq_c7_counterexample :
    (fq_next (bytes "@t\r\nA\r\n+x\r\nI\r\n") true).1 =
      some (Except.ok ⟨bytes "t", bytes "A", bytes "+x\r", bytes "I"⟩) ∧
    (fq_next (bytes "@t\nA\n+x\nI\n") true).1 =
      some (Except.ok ⟨bytes "t", bytes "A", bytes "+x", bytes "I"⟩) ∧
    bCr ∈ bytes "+x\r" := by decide

/-- Claim C7 (amended): for valid inputs written with CRLF endings the
records are identical to the `\n`-only equivalent with the trailing `\r`
removed from id, sequence and quality, while the id2 field retains its
trailing `\r`. -/
theorem fastq_c7_amended (rs : List FastqRecord) (hv : ∀ r ∈ rs, validRec r) :
    parseChunk (encodeList (rs.map (fun r => (r, true)))) true =
      (rs.map (fun r => recView r true),
        (encodeList (rs.map (fun r => (r, true)))).length, none) ∧
    parseChunk (encodeList (rs.map (fun r => (r, false)))) true =
      (rs.map (fun r => recView r false),
        (encodeList (rs.map (fun r => (r, false)))).length, none) ∧
    rs.map (fun r => recView r true) =
      (rs.map (fun r => recView r false)).map
        (fun v => ⟨v.id, v.seq, v.id2 ++ [bCr], v.qual⟩) := by
  refine ⟨?_, ?_, ?_⟩
  · rw [parseChunk_encodeList (rs.map (fun r => (r, true))) true
      (fun x hx => by obtain ⟨r, hr, rfl⟩ := List.mem_map.1 hx; exact hv r hr)]
    rw [List.map_map]
    rfl
  · rw [parseChunk_encodeList (rs.map (fun r => (r, false))) true
      (fun x hx => by obtain ⟨r, hr, rfl⟩ := List.mem_map.1 hx; exact hv r hr)]
    rw [List.map_map]
    rfl
  · rw [List.map_map]
    refine List.map_congr_left ?_
    intro r hr
    simp [recView, crOpt, Function.comp]

/-- Witness for C7 (amended) at a concrete record list. -/
theorem fastq_c7_witness :
    parseChunk (encodeList ([⟨bytes "t", bytes "A", bytes "x", bytes "I"⟩].map
        (fun r => (r, true)))) true =
      ([⟨bytes "t", bytes "A", bytes "x", bytes "I"⟩].map (fun r => recView r true),
        (encodeList ([⟨bytes "t", bytes "A", bytes "x", bytes "I"⟩].map
          (fun r => (r, true)))).length, none) ∧
    parseChunk (encodeList ([⟨bytes "t", bytes "A", bytes "x", bytes "I"⟩].map
        (fun r => (r, false)))) true =
      ([⟨bytes "t", bytes "A", bytes "x", bytes "I"⟩].map (fun r => recView r false),
        (encodeList ([⟨bytes "t", bytes "A", bytes "x", bytes "I"⟩].map
          (fun r => (r, false)))).length, none) ∧
    [⟨bytes "t", bytes "A", bytes "x", bytes "I"⟩].map (fun r => recView r true) =
      ([⟨bytes "t", bytes "A", bytes "x", bytes "I"⟩].map (fun r => recView r false)).map
        (fun v => ⟨v.id, v.seq, v.id2 ++ [bCr], v.qual⟩) :=
  fastq_c7_amended [⟨bytes "t", bytes "A", bytes "x", bytes "I"⟩] (by decide)

/-- Claim C8: across any sequence of `next` calls the cursor is
monotonically non-decreasing, never exceeds the chunk length, and a call
returning no record or an error leaves it unchanged. -/
theorem fastq_c8_cursor (p : FastqParser) (h : p.pos ≤ p.buf.length) (k : Nat) :
    (FastqParser.steps k p).pos ≤ (FastqParser.steps (k + 1) p).pos ∧
    (FastqParser.steps k p).pos ≤ p.buf.length ∧
    ((FastqParser.steps k p).next.1 = none →
      (FastqParser.steps (k + 1) p).pos = (FastqParser.steps k p).pos) ∧
    (∀ e, (FastqParser.steps k p).next.1 = some (Except.error e) →
      (FastqParser.steps (k + 1) p).pos = (FastqParser.steps k p).pos) := by
  have hq : FastqParser.steps (k + 1) p = (FastqParser.steps k p).next.2 := steps_succ k p
  refine ⟨?_, steps_pos_le k p h, ?_, ?_⟩
  · rw [hq, next_pos]
    exact Nat.le_add_right _ _
  · intro hn
    rw [hq, next_pos, fq_next_none_used _ _ ((next_fst _).symm.trans hn)]
    omega
  · intro e he
    rw [hq, next_pos, fq_next_error_used _ _ e ((next_fst _).symm.trans he)]
    omega

/-- Witness for C8 at a concrete parser state. -/
theorem fastq_c8_witness :
    (FastqParser.steps 0 ⟨bytes "@t\nA\n+\nI\n", true, 0⟩).pos ≤
      (FastqParser.steps 1 ⟨bytes "@t\nA\n+\nI\n", true, 0⟩).pos ∧
    (FastqParser.steps 0 ⟨bytes "@t\nA\n+\nI\n", true, 0⟩).pos ≤
      (⟨bytes "@t\nA\n+\nI\n", true, 0⟩ : FastqParser).buf.length :=
  ⟨(fastq_c8_cursor ⟨bytes "@t\nA\n+\nI\n", true, 0⟩ (by decide) 0).1,
    (fastq_c8_cursor ⟨bytes "@t\nA\n+\nI\n", true, 0⟩ (by decide) 0).2.1⟩

/-- Claim C9 counterexample: for `"@t\nA\n+x\nI\n"` the yielded id2 field
is `"+x"`, including the `'+'` marker byte, not the text `"x"` after it. -/
theorem fastq_c9_counterexample :
    (fq_next (bytes "@t\nA\n+x\nI\n") true).1 =
      some (Except.ok ⟨bytes "t", bytes "A", bytes "+x", bytes "I"⟩) ∧
    ¬((fq_next (bytes "@t\nA\n+x\nI\n") true).1 =
      some (Except.ok ⟨bytes "t", bytes "A", bytes "x", bytes "I"⟩)) := by decide

/-- Claim C9 (amended): the yielded id2 field holds the entire second
header line including the leading `'+'` marker byte (and, in the CRLF
convention, its trailing `\r`), with only the terminating `\n` excluded;
unlike id, whose `'@'` marker is excluded. -/
theorem fastq_c9_amended (r : FastqRecord) (c : Bool) (tail : List Nat) (last : Bool)
    (hv : validRec r) (htail : tail = [] ∨ ∃ t, tail = bAt :: t) :
    fq_next (encodeRec r c ++ tail) last =
      (some (Except.ok ⟨r.id, r.seq, bPlus :: (r.id2 ++ crOpt c), r.qual⟩),
        (encodeRec r c).length) :=
  fq_next_encodeRec r c tail last hv htail

/-- Witness for C9 (amended) at a concrete record. -/
theorem fastq_c9_witness :
    fq_next (encodeRec ⟨bytes "t", bytes "A", bytes "x", bytes "I"⟩ false ++ []) true =
      (some (Except.ok ⟨bytes "t", bytes "A", bPlus :: (bytes "x" ++ crOpt false), bytes "I"⟩),
        (encodeRec ⟨bytes "t", bytes "A", bytes "x", bytes "I"⟩ false).length) :=
  fastq_c9_amended ⟨bytes "t", bytes "A", bytes "x", bytes "I"⟩ false [] true
    (by decide) (Or.inl rfl)

/-- Claim C10: construction reads the chunk's first byte before any other
check, so the empty chunk neither succeeds nor yields `InvalidHeader`
(the out-of-bounds read, a panic, is modelled as `none`), while any
non-empty chunk never panics. -/
theorem fastq_c10_empty_chunk (last : Bool) (b : Nat) (rest : List Nat) :
    FastqParser.new [] last = none ∧ (FastqParser.new (b :: rest) last).isSome = true := by
  refine ⟨rfl, ?_⟩
  simp only [FastqParser.new]
  split
  · split
    · rfl
    · rfl
  · rfl

end Needletail
